import Mathlib

/-!
Verification of the whitespace-cleaning core of the paste-code-cleaner
plugin.  Lines are modelled as lists of characters; the JavaScript string
primitives used by the source (`trim`, `trimStart`, `trimEnd`, `split('\n')`,
`join('\n')`, `startsWith`, `endsWith`) are embedded as executable functions
on `List Char`.
-/

/-- Whitespace test used by the trim functions. -/
def isWS (c : Char) : Bool :=
  c == ' ' || c == '\t' || c == '\r' || c == '\n'

/-- JS `String.prototype.trimStart`: drop leading whitespace. -/
def trimStart (s : List Char) : List Char :=
  s.dropWhile isWS

/-- JS `String.prototype.trimEnd`: drop trailing whitespace. -/
def trimEnd (s : List Char) : List Char :=
  (s.reverse.dropWhile isWS).reverse

/-- JS `String.prototype.trim`: drop whitespace on both ends. -/
def trim (s : List Char) : List Char :=
  trimEnd (trimStart s)

/-- JS `line.trim() === ''`. -/
def isBlankLine (l : List Char) : Bool :=
  trim l == []

/-- `prevLine.endsWith('(') || prevLine.endsWith('[') || prevLine.endsWith('{')`
from the source (rule 1 of `smartCleanBlankLines`). -/
def endsWithOpen (s : List Char) : Bool :=
  List.isSuffixOf ['('] s || List.isSuffixOf ['['] s || List.isSuffixOf ['\x7b'] s

/-- `nextLine.startsWith(')') || nextLine.startsWith(']') || nextLine.startsWith('}')`
from the source (rule 2 of `smartCleanBlankLines`). -/
def startsWithClose (s : List Char) : Bool :=
  List.isPrefixOf [')'] s || List.isPrefixOf [']'] s || List.isPrefixOf ['\x7d'] s

/-- The loop body of `smartCleanBlankLines` from `src/main.ts`.  The first
argument is the trimmed form of the last line already pushed to `result`
(`''` when `result` is empty), which is the only information about `result`
the loop reads (`prevLine` and `lastResultLine` in the source). -/
def smartCleanGo (prevT : List Char) : List (List Char) → List (List Char)
  | [] => []
  | l :: rest =>
    if isBlankLine l = false then
      l :: smartCleanGo (trim l) rest
    else if endsWithOpen prevT then
      smartCleanGo prevT rest
    else if startsWithClose (trim (rest.headD [])) then
      smartCleanGo prevT rest
    else if prevT == [] then
      smartCleanGo prevT rest
    else
      l :: smartCleanGo (trim l) rest

/-- `smartCleanBlankLines(lines)` from `src/main.ts`. -/
def smartCleanBlankLines (lines : List (List Char)) : List (List Char) :=
  smartCleanGo [] lines

/-- JS `text.split('\n')` (split on every newline; a trailing newline yields a
trailing empty element; the empty string yields one empty element). -/
def splitLines : List Char → List (List Char)
  | [] => [[]]
  | c :: cs =>
    if c == '\n' then
      [] :: splitLines cs
    else
      match splitLines cs with
      | h :: t => (c :: h) :: t
      | [] => [[c]]

/-- JS `lines.join('\n')`. -/
def joinLines : List (List Char) → List Char
  | [] => []
  | l :: ls =>
    match ls with
    | [] => l
    | _ :: _ => l ++ '\n' :: joinLines ls

/-- `cleanTrailingWhitespace(text)` from `src/main.ts`. -/
def cleanTrailingWhitespace (text : List Char) : List Char :=
  joinLines (smartCleanBlankLines ((splitLines text).map trimEnd))

/-- `cleanCodeBlock(content)` from `src/main.ts`. -/
def cleanCodeBlock (content : List Char) : List Char :=
  let lines := splitLines content
  if lines.length < 2 then content
  else
    let openingFence := lines.headD []
    let closingFence := lines.getLastD []
    let codeLines := (lines.drop 1).take (lines.length - 2)
    let cleanedLines := codeLines.map trimEnd
    let processedLines := smartCleanBlankLines cleanedLines
    joinLines (openingFence :: (processedLines ++ [closingFence]))

/-- A `{line, ch}` editor position. -/
structure Pos where
  line : Nat
  ch : Nat
deriving DecidableEq, Repr

/-- The `CodeBlockInfo` record of `src/main.ts`. -/
structure CodeBlockInfo where
  fromPos : Pos
  toPos : Pos
  content : List Char
deriving DecidableEq, Repr

/-- `line.trimStart().startsWith('```')` from `getCodeBlockAtCursor`. -/
def isFenceLine (l : List Char) : Bool :=
  List.isPrefixOf ("```".data) (trimStart l)

/-- The scanning loop of `getCodeBlockAtCursor` from `src/main.ts`: `i` is the
current index, the `Option Nat` state is `none` when `inCodeBlock` is false
and `some codeBlockStart` when it is true, and the list argument is the
remaining suffix of `allLines` starting at index `i`. -/
def scanGo (allLines : List (List Char)) (cursorLine : Nat) :
    Nat → Option Nat → List (List Char) → Option CodeBlockInfo
  | _, _, [] => none
  | i, none, l :: rest =>
    if isFenceLine l then scanGo allLines cursorLine (i+1) (some i) rest
    else scanGo allLines cursorLine (i+1) none rest
  | i, some s, l :: rest =>
    if isFenceLine l then
      if s ≤ cursorLine ∧ cursorLine ≤ i then
        some ⟨⟨s, 0⟩, ⟨i, l.length⟩, joinLines ((allLines.drop s).take (i + 1 - s))⟩
      else scanGo allLines cursorLine (i+1) none rest
    else scanGo allLines cursorLine (i+1) (some s) rest

/-- `getCodeBlockAtCursor` from `src/main.ts`, with the editor abstracted to
the document text and the cursor line. -/
def getCodeBlockAtCursor (content : List Char) (cursorLine : Nat) :
    Option CodeBlockInfo :=
  let lines := splitLines content
  scanGo lines cursorLine 0 none lines

/-- The start/end index pairs produced by the fence scan of
`getCodeBlockAtCursor`: each fence line seen while not inside a block opens a
block, and the next fence line closes it. -/
def fencePairsGo : Nat → Option Nat → List (List Char) → List (Nat × Nat)
  | _, _, [] => []
  | i, none, l :: rest =>
    if isFenceLine l then fencePairsGo (i+1) (some i) rest
    else fencePairsGo (i+1) none rest
  | i, some s, l :: rest =>
    if isFenceLine l then (s, i) :: fencePairsGo (i+1) none rest
    else fencePairsGo (i+1) (some s) rest

/-- All fence pairs of a document. -/
def fencePairs (lines : List (List Char)) : List (Nat × Nat) :=
  fencePairsGo 0 none lines

/-- The keep/suppress decision the loop of `smartCleanBlankLines` takes for
each input line, in input order (same recursion as `smartCleanGo`; `true`
means the line is pushed to `result`). -/
def smartCleanKeepGo (prevT : List Char) : List (List Char) → List Bool
  | [] => []
  | l :: rest =>
    if isBlankLine l = false then
      true :: smartCleanKeepGo (trim l) rest
    else if endsWithOpen prevT then
      false :: smartCleanKeepGo prevT rest
    else if startsWithClose (trim (rest.headD [])) then
      false :: smartCleanKeepGo prevT rest
    else if prevT == [] then
      false :: smartCleanKeepGo prevT rest
    else
      true :: smartCleanKeepGo (trim l) rest

/-- Keep/suppress decisions of `smartCleanBlankLines`. -/
def smartCleanKeep (lines : List (List Char)) : List Bool :=
  smartCleanKeepGo [] lines

/-- Filter a list through a Boolean keep-mask. -/
def applyMask : List Bool → List (List Char) → List (List Char)
  | true :: m, l :: rest => l :: applyMask m rest
  | false :: m, _ :: rest => applyMask m rest
  | _, _ => []

/-- Invariant of the sequences `smartCleanGo` emits: every blank line in the
sequence was pushed while the trimmed last-output state was nonempty and did
not end with an opening bracket. -/
def noBadBlank : List Char → List (List Char) → Prop
  | _, [] => True
  | prevT, l :: rest =>
    (isBlankLine l = true → prevT ≠ [] ∧ endsWithOpen prevT = false) ∧
    noBadBlank (trim l) rest

/-- Every output of the blank-line loop is a sublist of its input. -/
theorem smartCleanGo_sublist : ∀ (lines : List (List Char)) (prevT : List Char),
    List.Sublist (smartCleanGo prevT lines) lines
  | [], _ => by simp [smartCleanGo]
  | l :: rest, prevT => by
    simp only [smartCleanGo]
    split
    · exact (smartCleanGo_sublist rest (trim l)).cons₂ l
    split
    · exact (smartCleanGo_sublist rest prevT).cons l
    split
    · exact (smartCleanGo_sublist rest prevT).cons l
    split
    · exact (smartCleanGo_sublist rest prevT).cons l
    · exact (smartCleanGo_sublist rest (trim l)).cons₂ l

/-- A blank line satisfies `trim l = []`. -/
theorem trim_eq_nil_of_blank {l : List Char} (h : isBlankLine l = true) :
    trim l = [] := by
  simpa [isBlankLine] using h

/-- The blank-line loop never emits two consecutive blank lines, and its
first emitted line can only be blank when the incoming `prevT` state is
nonempty. -/
theorem smartCleanGo_noTwoBlank : ∀ (lines : List (List Char)) (prevT : List Char),
    List.Chain' (fun a b => isBlankLine b = true → isBlankLine a = false)
      (smartCleanGo prevT lines) ∧
    ∀ hd, (smartCleanGo prevT lines).head? = some hd → isBlankLine hd = true → prevT ≠ []
  | [], prevT => by simp [smartCleanGo]
  | l :: rest, prevT => by
    have ihT := smartCleanGo_noTwoBlank rest (trim l)
    have ihP := smartCleanGo_noTwoBlank rest prevT
    simp only [smartCleanGo]
    split
    next hnb =>
      refine ⟨?_, ?_⟩
      · rw [List.chain'_cons']
        exact ⟨fun y _ _ => hnb, ihT.1⟩
      · intro hd hhd hbhd
        simp only [List.head?_cons, Option.some.injEq] at hhd
        subst hhd
        exact absurd hbhd (by simp [hnb])
    next hb =>
      have hbl : isBlankLine l = true := by
        revert hb
        cases isBlankLine l <;> simp
      split
      · exact ihP
      split
      · exact ihP
      split
      · exact ihP
      next hpe =>
        have hpne : prevT ≠ [] := by
          intro hc
          exact hpe (by simp [hc])
        refine ⟨?_, ?_⟩
        · rw [List.chain'_cons']
          refine ⟨?_, ihT.1⟩
          intro y hy hby
          exact absurd (trim_eq_nil_of_blank hbl) (ihT.2 y (by simpa using hy) hby)
        · intro hd hhd _
          exact hpne

/-- `smartCleanGo` is the mask-filter of its own keep decisions. -/
theorem smartCleanGo_eq_applyMask : ∀ (lines : List (List Char)) (prevT : List Char),
    smartCleanGo prevT lines = applyMask (smartCleanKeepGo prevT lines) lines
  | [], _ => rfl
  | l :: rest, prevT => by
    simp only [smartCleanGo, smartCleanKeepGo]
    by_cases h1 : isBlankLine l = false
    · rw [if_pos h1, if_pos h1]
      simp only [applyMask]
      rw [smartCleanGo_eq_applyMask rest (trim l)]
    · rw [if_neg h1, if_neg h1]
      by_cases h2 : endsWithOpen prevT = true
      · rw [if_pos h2, if_pos h2]
        simp only [applyMask]
        exact smartCleanGo_eq_applyMask rest prevT
      · rw [if_neg h2, if_neg h2]
        by_cases h3 : startsWithClose (trim (rest.headD [])) = true
        · rw [if_pos h3, if_pos h3]
          simp only [applyMask]
          exact smartCleanGo_eq_applyMask rest prevT
        · rw [if_neg h3, if_neg h3]
          by_cases h4 : (prevT == []) = true
          · rw [if_pos h4, if_pos h4]
            simp only [applyMask]
            exact smartCleanGo_eq_applyMask rest prevT
          · rw [if_neg h4, if_neg h4]
            simp only [applyMask]
            rw [smartCleanGo_eq_applyMask rest (trim l)]

/-- A blank input line whose immediate successor in the input starts (after
trim) with a closing bracket is never kept, whatever the loop state. -/
theorem smartCleanKeepGo_closer : ∀ (lines : List (List Char)) (prevT : List Char)
    (i : Nat), i + 1 < lines.length →
    isBlankLine (lines.getD i []) = true →
    startsWithClose (trim (lines.getD (i+1) [])) = true →
    (smartCleanKeepGo prevT lines).getD i true = false
  | [], _, i => by
    intro h _ _
    exact absurd h (by simp)
  | l :: rest, prevT, 0 => by
    intro hlen hb hc
    have hhead : (l :: rest).getD 1 ([] : List Char) = rest.headD [] := by
      cases rest <;> simp [List.getD]
    rw [hhead] at hc
    simp only [List.getD_cons_zero] at hb
    simp only [smartCleanKeepGo]
    rw [if_neg (by simp [hb])]
    by_cases h2 : endsWithOpen prevT = true
    · rw [if_pos h2, List.getD_cons_zero]
    · rw [if_neg h2, if_pos hc, List.getD_cons_zero]
  | l :: rest, prevT, (i+1) => by
    intro hlen hb hc
    simp only [List.length_cons] at hlen
    have hlen' : i + 1 < rest.length := by omega
    simp only [List.getD_cons_succ] at hb hc
    have ihT := smartCleanKeepGo_closer rest (trim l) i hlen' hb hc
    have ihP := smartCleanKeepGo_closer rest prevT i hlen' hb hc
    simp only [smartCleanKeepGo]
    split
    · simpa using ihT
    split
    · simpa using ihP
    split
    · simpa using ihP
    split
    · simpa using ihP
    · simpa using ihT

/-- The output of the blank-line loop satisfies the `noBadBlank` invariant
for the state it started from. -/
theorem smartCleanGo_noBadBlank : ∀ (lines : List (List Char)) (prevT : List Char),
    noBadBlank prevT (smartCleanGo prevT lines)
  | [], prevT => by simp [smartCleanGo, noBadBlank]
  | l :: rest, prevT => by
    simp only [smartCleanGo]
    split
    next hnb =>
      refine ⟨fun hb => absurd hb (by simp [hnb]), smartCleanGo_noBadBlank rest (trim l)⟩
    next hb =>
      split
      · exact smartCleanGo_noBadBlank rest prevT
      split
      · exact smartCleanGo_noBadBlank rest prevT
      split
      · exact smartCleanGo_noBadBlank rest prevT
      next h2 h3 h4 =>
        refine ⟨fun _ => ⟨?_, ?_⟩, smartCleanGo_noBadBlank rest (trim l)⟩
        · intro hcon
          exact h4 (by simp [hcon])
        · revert h2
          cases endsWithOpen prevT <;> simp

/-- A sequence satisfying the `noBadBlank` invariant and containing no line
whose trimmed form starts with a closing bracket is a fixed point of the
blank-line loop. -/
theorem smartCleanGo_fixed : ∀ (out : List (List Char)) (prevT : List Char),
    noBadBlank prevT out →
    (∀ l ∈ out, startsWithClose (trim l) = false) →
    smartCleanGo prevT out = out
  | [], _, _, _ => rfl
  | l :: rest, prevT, hn, hc => by
    rw [noBadBlank] at hn
    have hrest := smartCleanGo_fixed rest (trim l) hn.2
      (fun x hx => hc x (List.mem_cons_of_mem _ hx))
    simp only [smartCleanGo]
    by_cases hb : isBlankLine l = false
    · rw [if_pos hb, hrest]
    · have hbl : isBlankLine l = true := by
        revert hb
        cases isBlankLine l <;> simp
      obtain ⟨hne, hop⟩ := hn.1 hbl
      have hc3 : startsWithClose (trim (rest.headD [])) = false := by
        cases rest with
        | nil => rfl
        | cons r rs => simpa using hc r (by simp)
      rw [if_neg hb, if_neg (by rw [hop]; simp), if_neg (by rw [hc3]; simp),
        if_neg (by simpa using hne), hrest]

/-- `trimEnd` only removes characters. -/
theorem trimEnd_sublist (l : List Char) : List.Sublist (trimEnd l) l := by
  have h1 := (List.dropWhile_sublist (l := l.reverse) isWS).reverse
  simpa [trimEnd] using h1

/-- `splitLines` never returns the empty list. -/
theorem splitLines_ne_nil : ∀ (s : List Char), splitLines s ≠ []
  | [] => by simp [splitLines]
  | c :: cs => by
    simp only [splitLines]
    split
    · simp
    · split <;> simp

/-- No element produced by `splitLines` contains a newline. -/
theorem splitLines_no_newline : ∀ (s : List Char) (l : List Char),
    l ∈ splitLines s → '\n' ∉ l
  | [], l => by
    intro hl
    simp only [splitLines, List.mem_singleton] at hl
    subst hl
    simp
  | c :: cs, l => by
    intro hl
    simp only [splitLines] at hl
    split at hl
    next hc =>
      rcases List.mem_cons.1 hl with rfl | hl'
      · simp
      · exact splitLines_no_newline cs l hl'
    next hc =>
      have hcn : c ≠ '\n' := by simpa using hc
      split at hl
      next h t hs =>
        rcases List.mem_cons.1 hl with rfl | hl'
        · intro hmem
          rcases List.mem_cons.1 hmem with h1 | h2
          · exact hcn h1.symm
          · exact splitLines_no_newline cs h (by rw [hs]; exact List.mem_cons_self h t) h2
        · exact splitLines_no_newline cs l (by rw [hs]; exact List.mem_cons_of_mem h hl')
      next hs =>
        exact absurd hs (splitLines_ne_nil cs)

/-- A newline-free string splits into a single line. -/
theorem splitLines_eq_single : ∀ (s : List Char), '\n' ∉ s → splitLines s = [s]
  | [], _ => rfl
  | c :: cs, h => by
    have hcn : ¬(c == '\n') = true := by
      simp only [beq_iff_eq]
      intro hcc
      exact h (by rw [hcc]; exact List.mem_cons_self _ _)
    simp only [splitLines]
    rw [if_neg hcn, splitLines_eq_single cs (fun hm => h (List.mem_cons_of_mem _ hm))]

/-- Splitting at an explicit newline after a newline-free line. -/
theorem splitLines_append_newline : ∀ (l s : List Char), '\n' ∉ l →
    splitLines (l ++ '\n' :: s) = l :: splitLines s
  | [], s, _ => by simp [splitLines]
  | c :: l', s, h => by
    have hcn : ¬(c == '\n') = true := by
      simp only [beq_iff_eq]
      intro hcc
      exact h (by rw [hcc]; exact List.mem_cons_self _ _)
    rw [List.cons_append]
    simp only [splitLines]
    rw [if_neg hcn,
      splitLines_append_newline l' s (fun hm => h (List.mem_cons_of_mem _ hm))]

/-- `splitLines` is a left inverse of `joinLines` on nonempty lists of
newline-free lines. -/
theorem splitLines_joinLines : ∀ (L : List (List Char)), L ≠ [] →
    (∀ l ∈ L, '\n' ∉ l) → splitLines (joinLines L) = L
  | [], h, _ => absurd rfl h
  | [l], _, hn => by
    show splitLines l = [l]
    exact splitLines_eq_single l (hn l (by simp))
  | l :: l2 :: ls, _, hn => by
    show splitLines (l ++ '\n' :: joinLines (l2 :: ls)) = l :: l2 :: ls
    rw [splitLines_append_newline l _ (hn l (by simp)),
      splitLines_joinLines (l2 :: ls) (by simp)
        (fun x hx => hn x (List.mem_cons_of_mem _ hx))]

/-- If dropping `i` elements exposes `l`, then index `i` reads `l`. -/
theorem getD_of_drop_cons : ∀ (L : List (List Char)) (i : Nat) {l : List Char}
    {rest : List (List Char)}, L.drop i = l :: rest → L.getD i [] = l
  | [], i, _, _ => by intro h; simp at h
  | x :: L, 0, _, _ => by
    intro h
    simp only [List.drop_zero, List.cons.injEq] at h
    simp [h.1]
  | x :: L, (i+1), _, _ => by
    intro h
    rw [List.drop_succ_cons] at h
    simpa using getD_of_drop_cons L i h

/-- Dropping one more element after exposing a head. -/
theorem drop_succ_of_drop_cons : ∀ (L : List (List Char)) (i : Nat) {l : List Char}
    {rest : List (List Char)}, L.drop i = l :: rest → L.drop (i+1) = rest
  | [], i, _, _ => by intro h; simp at h
  | x :: L, 0, _, _ => by
    intro h
    simp only [List.drop_zero, List.cons.injEq] at h
    simp [h.2]
  | x :: L, (i+1), _, _ => by
    intro h
    rw [List.drop_succ_cons] at h
    rw [List.drop_succ_cons]
    exact drop_succ_of_drop_cons L i h

/-- Every pair the fence scan emits starts at or after the scan position,
except the pair opened by the incoming state. -/
theorem fencePairsGo_lb : ∀ (rest : List (List Char)) (i : Nat) (st : Option Nat)
    (p : Nat × Nat), p ∈ fencePairsGo i st rest → i ≤ p.1 ∨ st = some p.1
  | [], i, st, p => by simp [fencePairsGo]
  | l :: rest, i, none, p => by
    simp only [fencePairsGo]
    split
    · intro hp
      rcases fencePairsGo_lb rest (i+1) (some i) p hp with h | h
      · exact Or.inl (by omega)
      · exact Or.inl (by simp only [Option.some.injEq] at h; omega)
    · intro hp
      rcases fencePairsGo_lb rest (i+1) none p hp with h | h
      · exact Or.inl (by omega)
      · exact absurd h (by simp)
  | l :: rest, i, some s, p => by
    simp only [fencePairsGo]
    split
    · intro hp
      rcases List.mem_cons.1 hp with rfl | hp'
      · exact Or.inr rfl
      · rcases fencePairsGo_lb rest (i+1) none p hp' with h | h
        · exact Or.inl (by omega)
        · exact absurd h (by simp)
    · intro hp
      rcases fencePairsGo_lb rest (i+1) (some s) p hp with h | h
      · exact Or.inl (by omega)
      · exact Or.inr h

/-- When no fence pair of the remaining scan contains the cursor line, the
scan returns `none`. -/
theorem scanGo_none_of_noPair (allLines : List (List Char)) (c : Nat) :
    ∀ (rest : List (List Char)) (i : Nat) (st : Option Nat),
    (∀ p ∈ fencePairsGo i st rest, ¬(p.1 ≤ c ∧ c ≤ p.2)) →
    scanGo allLines c i st rest = none
  | [], i, st, _ => by cases st <;> rfl
  | l :: rest, i, none, h => by
    simp only [scanGo]
    split
    next hf =>
      exact scanGo_none_of_noPair allLines c rest (i+1) (some i)
        (fun p hp => h p (by simp only [fencePairsGo]; rw [if_pos hf]; exact hp))
    next hf =>
      exact scanGo_none_of_noPair allLines c rest (i+1) none
        (fun p hp => h p (by simp only [fencePairsGo]; rw [if_neg hf]; exact hp))
  | l :: rest, i, some s, h => by
    simp only [scanGo]
    split
    next hf =>
      have hhd : (s, i) ∈ fencePairsGo i (some s) (l :: rest) := by
        simp only [fencePairsGo]
        rw [if_pos hf]
        exact List.mem_cons_self _ _
      rw [if_neg (h (s, i) hhd)]
      exact scanGo_none_of_noPair allLines c rest (i+1) none
        (fun p hp => h p (by
          simp only [fencePairsGo]
          rw [if_pos hf]
          exact List.mem_cons_of_mem _ hp))
    next hf =>
      exact scanGo_none_of_noPair allLines c rest (i+1) (some s)
        (fun p hp => h p (by simp only [fencePairsGo]; rw [if_neg hf]; exact hp))

/-- When some fence pair of the remaining scan contains the cursor line, the
scan returns exactly that block. -/
theorem scanGo_finds_pair (allLines : List (List Char)) (c : Nat) :
    ∀ (rest : List (List Char)) (i : Nat) (st : Option Nat),
    rest = allLines.drop i →
    ∀ s e, (s, e) ∈ fencePairsGo i st rest → s ≤ c → c ≤ e →
    scanGo allLines c i st rest =
      some ⟨⟨s, 0⟩, ⟨e, (allLines.getD e []).length⟩,
        joinLines ((allLines.drop s).take (e + 1 - s))⟩
  | [], i, st, _, s, e, hmem, _, _ => by cases st <;> simp [fencePairsGo] at hmem
  | l :: rest, i, none, hdrop, s, e, hmem, hs, he => by
    have hdrop' : rest = allLines.drop (i+1) :=
      (drop_succ_of_drop_cons allLines i hdrop.symm).symm
    simp only [scanGo]
    simp only [fencePairsGo] at hmem
    split
    next hf =>
      rw [if_pos hf] at hmem
      exact scanGo_finds_pair allLines c rest (i+1) (some i) hdrop' s e hmem hs he
    next hf =>
      rw [if_neg hf] at hmem
      exact scanGo_finds_pair allLines c rest (i+1) none hdrop' s e hmem hs he
  | l :: rest, i, some s0, hdrop, s, e, hmem, hs, he => by
    have hdrop' : rest = allLines.drop (i+1) :=
      (drop_succ_of_drop_cons allLines i hdrop.symm).symm
    simp only [scanGo]
    simp only [fencePairsGo] at hmem
    split
    next hf =>
      rw [if_pos hf] at hmem
      rcases List.mem_cons.1 hmem with heq | htail
      · rw [Prod.mk.injEq] at heq
        obtain ⟨h1, h2⟩ := heq
        rw [if_pos ⟨h1 ▸ hs, h2 ▸ he⟩]
        have hl : allLines.getD e [] = l := by
          rw [h2]
          exact getD_of_drop_cons allLines i hdrop.symm
        rw [← h1, ← h2, hl]
      · rcases fencePairsGo_lb rest (i+1) none (s, e) htail with hlb | hlb
        · rw [if_neg (by intro hcon; omega)]
          exact scanGo_finds_pair allLines c rest (i+1) none hdrop' s e htail hs he
        · exact absurd hlb (by simp)
    next hf =>
      rw [if_neg hf] at hmem
      exact scanGo_finds_pair allLines c rest (i+1) (some s0) hdrop' s e hmem hs he

/-- Every block the scan returns is well formed with respect to the
document lines. -/
theorem scanGo_wf (allLines : List (List Char)) (c : Nat) :
    ∀ (rest : List (List Char)) (i : Nat) (st : Option Nat) (info : CodeBlockInfo),
    rest = allLines.drop i →
    (∀ s0, st = some s0 → s0 < i ∧ isFenceLine (allLines.getD s0 []) = true) →
    scanGo allLines c i st rest = some info →
    info.fromPos.line < info.toPos.line ∧
    isFenceLine (allLines.getD info.fromPos.line []) = true ∧
    isFenceLine (allLines.getD info.toPos.line []) = true ∧
    info.fromPos.ch = 0 ∧
    info.toPos.ch = (allLines.getD info.toPos.line []).length ∧
    info.content = joinLines ((allLines.drop info.fromPos.line).take
      (info.toPos.line + 1 - info.fromPos.line))
  | [], i, st, info, _, _, hscan => by cases st <;> simp [scanGo] at hscan
  | l :: rest, i, none, info, hdrop, hst, hscan => by
    have hdrop' : rest = allLines.drop (i+1) :=
      (drop_succ_of_drop_cons allLines i hdrop.symm).symm
    simp only [scanGo] at hscan
    split at hscan
    next hf =>
      refine scanGo_wf allLines c rest (i+1) (some i) info hdrop' ?_ hscan
      intro s0 hs0
      simp only [Option.some.injEq] at hs0
      rw [← hs0]
      exact ⟨by omega, by rw [getD_of_drop_cons allLines i hdrop.symm]; exact hf⟩
    next hf =>
      exact scanGo_wf allLines c rest (i+1) none info hdrop'
        (fun s0 hs0 => Option.noConfusion hs0) hscan
  | l :: rest, i, some s0, info, hdrop, hst, hscan => by
    have hdrop' : rest = allLines.drop (i+1) :=
      (drop_succ_of_drop_cons allLines i hdrop.symm).symm
    simp only [scanGo] at hscan
    split at hscan
    next hf =>
      split at hscan
      next hin =>
        simp only [Option.some.injEq] at hscan
        subst hscan
        obtain ⟨hlt, hsfence⟩ := hst s0 rfl
        refine ⟨hlt, hsfence, ?_, rfl, ?_, rfl⟩
        · rw [getD_of_drop_cons allLines i hdrop.symm]
          exact hf
        · rw [getD_of_drop_cons allLines i hdrop.symm]
      next hin =>
        exact scanGo_wf allLines c rest (i+1) none info hdrop'
          (fun s1 hs1 => Option.noConfusion hs1) hscan
    next hf =>
      refine scanGo_wf allLines c rest (i+1) (some s0) info hdrop' ?_ hscan
      intro s1 hs1
      obtain ⟨ha, hb⟩ := hst s1 hs1
      exact ⟨by omega, hb⟩

/-- The head default of a nonempty list is a member. -/
theorem mem_headD_of_ne_nil {L : List (List Char)} (h : L ≠ []) : L.headD [] ∈ L := by
  cases L with
  | nil => exact absurd rfl h
  | cons a L' => simp

/-- The last default of a nonempty list is a member. -/
theorem mem_getLastD_of_ne_nil {L : List (List Char)} (h : L ≠ []) :
    L.getLastD [] ∈ L := by
  cases L with
  | nil => exact absurd rfl h
  | cons a L' =>
    rw [List.getLastD_cons]
    exact List.getLastD_mem_cons L' a

/-- Claim C1 fails as stated: on the input `["foo", "", "", ")"]` one pass of
`smartCleanBlankLines` yields `["foo", "", ")"]`, and a second pass removes
the surviving blank (now adjacent to the closer), so the function is not
idempotent. -/
theorem smartCleanBlankLines_not_idempotent :
    smartCleanBlankLines (smartCleanBlankLines ["foo".data, [], [], ")".data]) ≠
      smartCleanBlankLines ["foo".data, [], [], ")".data] := by decide

/-- Claim C1 (amended): `smartCleanBlankLines` is idempotent on every line
sequence in which no line's trimmed form starts with a closing bracket
`)`, `]`, or `}`. -/
theorem smartCleanBlankLines_idempotent_noCloser (lines : List (List Char))
    (h : ∀ l ∈ lines, startsWithClose (trim l) = false) :
    smartCleanBlankLines (smartCleanBlankLines lines) = smartCleanBlankLines lines :=
  smartCleanGo_fixed (smartCleanGo [] lines) []
    (smartCleanGo_noBadBlank lines [])
    (fun x hx => h x ((smartCleanGo_sublist lines []).subset hx))

/-- Witness for the amended claim C1 at a concrete closer-free input. -/
theorem smartCleanBlankLines_idempotent_noCloser_witness :
    (∀ l ∈ (["foo".data, [], [], "bar".data] : List (List Char)),
      startsWithClose (trim l) = false) ∧
    smartCleanBlankLines (smartCleanBlankLines ["foo".data, [], [], "bar".data]) =
      smartCleanBlankLines ["foo".data, [], [], "bar".data] :=
  ⟨by decide, smartCleanBlankLines_idempotent_noCloser _ (by decide)⟩

/-- Claim C2 fails in its output-adjacency form: on the input
`["foo", "", "", ")"]` the output is `["foo", "", ")"]`, whose blank line at
index 1 is immediately followed by a line starting with `)`. -/
theorem smartCleanBlankLines_blank_before_closer_in_output :
    smartCleanBlankLines ["foo".data, [], [], ")".data] =
      ["foo".data, [], ")".data] ∧
    isBlankLine
      ((smartCleanBlankLines ["foo".data, [], [], ")".data]).getD 1 []) = true ∧
    startsWithClose
      (trim ((smartCleanBlankLines ["foo".data, [], [], ")".data]).getD 2 [])) =
      true :=
  ⟨by decide, by decide, by decide⟩

/-- Claim C2 (amended): suppression holds of input positions, not output
adjacency: `smartCleanBlankLines` keeps exactly the lines selected by its
keep-mask, and every blank input line whose immediate successor in the input
starts (after trim) with a closing bracket is marked suppressed. -/
theorem smartCleanBlankLines_closer_blank_suppressed (lines : List (List Char))
    (i : Nat) (h1 : i + 1 < lines.length)
    (h2 : isBlankLine (lines.getD i []) = true)
    (h3 : startsWithClose (trim (lines.getD (i+1) [])) = true) :
    smartCleanBlankLines lines = applyMask (smartCleanKeep lines) lines ∧
    (smartCleanKeep lines).getD i true = false :=
  ⟨smartCleanGo_eq_applyMask lines [], smartCleanKeepGo_closer lines [] i h1 h2 h3⟩

/-- Witness for the amended claim C2 at a concrete input. -/
theorem smartCleanBlankLines_closer_blank_suppressed_witness :
    (1 + 1 < (["a".data, [], ")".data] : List (List Char)).length) ∧
    isBlankLine ((["a".data, [], ")".data] : List (List Char)).getD 1 []) = true ∧
    startsWithClose
      (trim ((["a".data, [], ")".data] : List (List Char)).getD (1+1) [])) = true ∧
    (smartCleanBlankLines ["a".data, [], ")".data] =
        applyMask (smartCleanKeep ["a".data, [], ")".data]) ["a".data, [], ")".data] ∧
      (smartCleanKeep ["a".data, [], ")".data]).getD 1 true = false) :=
  ⟨by decide, by decide, by decide,
    smartCleanBlankLines_closer_blank_suppressed _ 1 (by decide) (by decide) (by decide)⟩

/-- Claim C3: for a blank input line the loop of `smartCleanBlankLines`
checks opener (trimmed last emitted line ends with an opening bracket), then
closer (trimmed next input line starts with a closing bracket), then
run-collapse (last emitted state blank/empty); the blank is suppressed with
the loop state unchanged when any check fires, and is emitted unchanged
otherwise.  A blank adjacent to both an opener and a following closer is
suppressed exactly once: the result is exactly the processing of the rest of
the input, which still contains the closer line. -/
theorem smartCleanGo_blank_rules (prevT l : List Char) (rest : List (List Char))
    (hb : isBlankLine l = true) :
    ((endsWithOpen prevT = true ∨ startsWithClose (trim (rest.headD [])) = true ∨
        prevT = []) →
      smartCleanGo prevT (l :: rest) = smartCleanGo prevT rest) ∧
    (endsWithOpen prevT = false → startsWithClose (trim (rest.headD [])) = false →
      prevT ≠ [] →
      smartCleanGo prevT (l :: rest) = l :: smartCleanGo (trim l) rest) := by
  constructor
  · intro hfire
    simp only [smartCleanGo]
    rw [if_neg (by simp [hb])]
    rcases hfire with h | h | h
    · rw [if_pos h]
    · by_cases ho : endsWithOpen prevT = true
      · rw [if_pos ho]
      · rw [if_neg ho, if_pos h]
    · subst h
      by_cases hc : startsWithClose (trim (rest.headD [])) = true
      · rw [if_neg (by decide), if_pos hc]
      · rw [if_neg (by decide), if_neg hc, if_pos (by decide)]
  · intro ho hc hp
    simp only [smartCleanGo]
    rw [if_neg (by simp [hb]), if_neg (by rw [ho]; simp), if_neg (by rw [hc]; simp),
      if_neg (by simpa using hp)]

/-- Witness for claim C3 at a concrete blank line and state. -/
theorem smartCleanGo_blank_rules_witness :
    isBlankLine [' '] = true ∧
    (((endsWithOpen ("x".data) = true ∨
        startsWithClose (trim (([] : List (List Char)).headD [])) = true ∨
        "x".data = ([] : List Char)) →
      smartCleanGo ("x".data) [[' ']] = smartCleanGo ("x".data) []) ∧
     (endsWithOpen ("x".data) = false →
      startsWithClose (trim (([] : List (List Char)).headD [])) = false →
      "x".data ≠ ([] : List Char) →
      smartCleanGo ("x".data) [[' ']] = [' '] :: smartCleanGo (trim [' ']) [])) :=
  ⟨by decide, smartCleanGo_blank_rules ("x".data) [' '] [] (by decide)⟩

/-- Claim C4: if the forward fence scan pairs an opening fence at index `s`
with a closing fence at index `e` and `s ≤ cursorLine ≤ e`, then
`getCodeBlockAtCursor` returns a block spanning exactly lines `s` to `e`;
when no scan pair encloses the cursor line (including an unterminated
trailing fence), it returns `none`. -/
theorem getCodeBlockAtCursor_locates_pairs (content : List Char) (c : Nat) :
    (∀ s e, (s, e) ∈ fencePairs (splitLines content) → s ≤ c → c ≤ e →
      ∃ info, getCodeBlockAtCursor content c = some info ∧
        info.fromPos.line = s ∧ info.toPos.line = e) ∧
    ((∀ p ∈ fencePairs (splitLines content), ¬(p.1 ≤ c ∧ c ≤ p.2)) →
      getCodeBlockAtCursor content c = none) := by
  constructor
  · intro s e hmem hs he
    exact ⟨_, scanGo_finds_pair (splitLines content) c (splitLines content) 0 none
      (by rw [List.drop_zero]) s e hmem hs he, rfl, rfl⟩
  · intro hno
    exact scanGo_none_of_noPair (splitLines content) c (splitLines content) 0 none hno

/-- Witness for claim C4 at a concrete document and cursor line. -/
theorem getCodeBlockAtCursor_locates_pairs_witness :
    ((1, 3) ∈ fencePairs (splitLines ("x\n```js\ny\n```\nz".data)) ∧
      1 ≤ 2 ∧ 2 ≤ 3) ∧
    (∃ info, getCodeBlockAtCursor ("x\n```js\ny\n```\nz".data) 2 = some info ∧
      info.fromPos.line = 1 ∧ info.toPos.line = 3) :=
  ⟨⟨by decide, by decide, by decide⟩,
    (getCodeBlockAtCursor_locates_pairs ("x\n```js\ny\n```\nz".data) 2).1 1 3
      (by decide) (by decide) (by decide)⟩

/-- Claim C5: for every block text of at least 2 lines, `cleanCodeBlock`
preserves the first and the last line character for character. -/
theorem cleanCodeBlock_preserves_fences (content : List Char)
    (h : 2 ≤ (splitLines content).length) :
    (splitLines (cleanCodeBlock content)).headD [] =
      (splitLines content).headD [] ∧
    (splitLines (cleanCodeBlock content)).getLastD [] =
      (splitLines content).getLastD [] := by
  have hne : splitLines content ≠ [] := splitLines_ne_nil content
  have hnn : ∀ l ∈ splitLines content, '\n' ∉ l := splitLines_no_newline content
  have hout : splitLines (cleanCodeBlock content) =
      (splitLines content).headD [] ::
        (smartCleanBlankLines ((((splitLines content).drop 1).take
          ((splitLines content).length - 2)).map trimEnd) ++
          [(splitLines content).getLastD []]) := by
    simp only [cleanCodeBlock]
    rw [if_neg (by omega)]
    refine splitLines_joinLines _ (by simp) ?_
    intro l hl
    rcases List.mem_cons.1 hl with rfl | hl'
    · exact hnn _ (mem_headD_of_ne_nil hne)
    · rcases List.mem_append.1 hl' with hmid | hlast
      · have hsub := (smartCleanGo_sublist _ ([] : List Char)).subset hmid
        rcases List.mem_map.1 hsub with ⟨y, hy, rfl⟩
        have hyL : y ∈ splitLines content :=
          List.mem_of_mem_drop (List.mem_of_mem_take hy)
        intro hmem
        exact hnn y hyL ((trimEnd_sublist y).subset hmem)
      · rw [List.mem_singleton.1 hlast]
        exact hnn _ (mem_getLastD_of_ne_nil hne)
  rw [hout]
  constructor
  · simp
  · rw [List.getLastD_cons]
    exact List.getLastD_concat _ _ _

/-- Witness for claim C5 at a concrete two-line block text. -/
theorem cleanCodeBlock_preserves_fences_witness :
    2 ≤ (splitLines ("a\nb".data)).length ∧
    ((splitLines (cleanCodeBlock ("a\nb".data))).headD [] =
        (splitLines ("a\nb".data)).headD [] ∧
      (splitLines (cleanCodeBlock ("a\nb".data))).getLastD [] =
        (splitLines ("a\nb".data)).getLastD []) :=
  ⟨by decide, cleanCodeBlock_preserves_fences ("a\nb".data) (by decide)⟩

/-- Claim C6 (Scenario D): trailing whitespace is stripped per line and the
trailing empty line produced by the final newline is preserved. -/
theorem cleanTrailingWhitespace_scenarioD :
    cleanTrailingWhitespace ("line1   \nline2\t\n".data) =
      ("line1\nline2\n".data) := by decide

/-- Claim C7: block text that contains no newline splits into fewer than two
lines and `cleanCodeBlock` returns it unchanged. -/
theorem cleanCodeBlock_short_input_unchanged (content : List Char)
    (h : '\n' ∉ content) :
    (splitLines content).length < 2 ∧ cleanCodeBlock content = content := by
  have hs : splitLines content = [content] := splitLines_eq_single content h
  refine ⟨by rw [hs]; simp, ?_⟩
  simp only [cleanCodeBlock]
  rw [if_pos (by rw [hs]; simp)]

/-- Witness for claim C7 at a concrete newline-free input. -/
theorem cleanCodeBlock_short_input_unchanged_witness :
    ('\n' ∉ ("abc".data)) ∧
    ((splitLines ("abc".data)).length < 2 ∧
      cleanCodeBlock ("abc".data) = "abc".data) :=
  ⟨by decide, cleanCodeBlock_short_input_unchanged ("abc".data) (by decide)⟩

/-- Claim C8: `smartCleanBlankLines` is total, returns a sublist of its input
(same lines, same order, emitted verbatim), never lengthens the input, and
maps the empty sequence to the empty sequence. -/
theorem smartCleanBlankLines_total_sublist (lines : List (List Char)) :
    List.Sublist (smartCleanBlankLines lines) lines ∧
    (smartCleanBlankLines lines).length ≤ lines.length ∧
    smartCleanBlankLines ([] : List (List Char)) = [] :=
  ⟨smartCleanGo_sublist lines [], (smartCleanGo_sublist lines []).length_le, rfl⟩

/-- Claim C9: the output of `smartCleanBlankLines` never contains two
consecutive blank lines: every blank output line other than the first output
line is immediately preceded by a non-blank line. -/
theorem smartCleanBlankLines_no_consecutive_blanks (lines : List (List Char)) :
    List.Chain' (fun a b => isBlankLine b = true → isBlankLine a = false)
      (smartCleanBlankLines lines) :=
  (smartCleanGo_noTwoBlank lines []).1

/-- Claim C10: every block returned by `getCodeBlockAtCursor` is well formed:
`from.line < to.line`, both boundary lines are fence lines, `from.ch = 0`,
`to.ch` is the length of the closing line, and `content` is the
newline-join of the document lines from `from.line` to `to.line` inclusive. -/
theorem getCodeBlockAtCursor_wellFormed (content : List Char) (c : Nat)
    (info : CodeBlockInfo) (h : getCodeBlockAtCursor content c = some info) :
    info.fromPos.line < info.toPos.line ∧
    isFenceLine ((splitLines content).getD info.fromPos.line []) = true ∧
    isFenceLine ((splitLines content).getD info.toPos.line []) = true ∧
    info.fromPos.ch = 0 ∧
    info.toPos.ch = ((splitLines content).getD info.toPos.line []).length ∧
    info.content = joinLines (((splitLines content).drop info.fromPos.line).take
      (info.toPos.line + 1 - info.fromPos.line)) :=
  scanGo_wf (splitLines content) c (splitLines content) 0 none info
    (by rw [List.drop_zero]) (fun s0 hs0 => Option.noConfusion hs0) h

/-- Witness for claim C10 at a concrete document. -/
theorem getCodeBlockAtCursor_wellFormed_witness :
    (0 : Nat) < 2 ∧
    isFenceLine ((splitLines ("```\nx\n```".data)).getD 0 []) = true ∧
    isFenceLine ((splitLines ("```\nx\n```".data)).getD 2 []) = true ∧
    (0 : Nat) = 0 ∧
    (3 : Nat) = ((splitLines ("```\nx\n```".data)).getD 2 []).length ∧
    "```\nx\n```".data =
      joinLines (((splitLines ("```\nx\n```".data)).drop 0).take (2 + 1 - 0)) :=
  getCodeBlockAtCursor_wellFormed ("```\nx\n```".data) 0
    ⟨⟨0, 0⟩, ⟨2, 3⟩, "```\nx\n```".data⟩ (by decide)

